import Mathlib

/-!
# Verification of `creative.py`

A shallow embedding of the algorithmic core of the repository's single source
file `creative.py`, together with theorems settling the specification claims.

Conventions:
* bit-strings are `List Bool` (character `'1'` is `true`);
* probabilities and coordinates are `ℚ`; the scalar encoder's phase is `ℝ`;
* the execution backend is external to the repository: it is modelled by its
  contract (an `rx(θ)` rotation of `|0⟩` measures `1` with chance `sin²(θ/2)`;
  an `X`/`H`/`CX` circuit on `|0…0⟩` measures outcome `v` with chance given by
  the squared amplitude), and raw counts / observed fractions are inputs;
* Python code that can raise (index errors, missing dict keys, the
  unrecognized-device abort) is embedded with `Option` / `Except`.
-/

/-! ## Statistics normalizer: mitigation (creative.py, lines 105-109)

`if p<0.1: p = 0  elif p>0.9: p = 1` applied to the observed fraction `p`. -/

def mitigate (p : ℚ) : ℚ :=
  if p < 1/10 then 0 else if 9/10 < p then 1 else p

/-! ## Dual-basis bit `twobit` (lines 62-113)

The internal state of a `twobit` is the prepared circuit `self.qc`; `prepare`
resets it and appends the gates below (lines 72-86).  `value` measures, turns
the counts into the observed fraction `p`, optionally mitigates, draws a
boolean by comparing `p` with a uniform sample `r = random.random()`
(line 110: `measured_value = ( p>random.random() )`), and re-prepares the
drawn value in the requested basis (line 111). -/

inductive TGate
  | x
  | h
  | s

inductive PrepSpec
  | y
  | px (b : Bool)
  | pz (b : Bool)

def prepareGates : PrepSpec → List TGate
  | .y => [.h, .s]
  | .px b => (if b then [.x] else []) ++ [.h]
  | .pz b => if b then [.x] else []

inductive MeasBasis
  | X
  | Z

def commitSpec : MeasBasis → Bool → PrepSpec
  | .X, b => .px b
  | .Z, b => .pz b

/-- Lines 99-113 of `twobit.value`, after the backend returned the observed
fraction `p` of outcome `1`; `r` is the uniform draw `random.random()`.
Returns the boolean result together with the circuit re-prepared by
`self.prepare({basis: measured_value})`. -/
def twobitValue (basis : MeasBasis) (p r : ℚ) (useMitigation : Bool) :
    Bool × List TGate :=
  let p1 := if useMitigation then mitigate p else p
  let v := decide (r < p1)
  (v, prepareGates (commitSpec basis v))

/-! ## Scalar encoder `ladder` (lines 29-59)

The state is the modulus `d` and the accumulated circuit `self.qc`, a list of
`rx` rotations.  `value` deep-copies the circuit, appends barrier+measurement
to the copy and decodes `round(2*arcsin(sqrt(p))*d/pi)` from the noiseless
probability `p = sin²(θ/2)` of outcome `1`, where `θ` is the accumulated
rotation angle.  The object's own circuit is untouched. -/

inductive LOp
  | rx (angle : ℝ)
  | barrier
  | meas

structure Ladder where
  d : ℕ
  qc : List LOp

def ladderInit (d : ℕ) : Ladder := ⟨d, []⟩

/-- Line 43: `self.qc.rx(np.pi*delta/self.d, self.qr[0])`. -/
noncomputable def ladderAdd (s : Ladder) (delta : ℝ) : Ladder :=
  ⟨s.d, s.qc ++ [LOp.rx (Real.pi * delta / s.d)]⟩

def rxAngle : LOp → ℝ
  | .rx a => a
  | .barrier => 0
  | .meas => 0

noncomputable def thetaOf (ops : List LOp) : ℝ := (ops.map rxAngle).sum

/-- Modelled external backend: an `rx(θ)` rotation of `|0⟩` yields outcome `1`
with probability `sin²(θ/2)` (the noiseless, infinite-shot limit of
`counts['1']/shots` in lines 54-57). -/
noncomputable def rx1Prob (θ : ℝ) : ℝ := Real.sin (θ / 2) ^ 2

/-- Lines 50-59 of `ladder.value`: the measurement is appended to a deep copy
`temp_qc` of the circuit; the decoded integer and the (unchanged) object state
are returned. -/
noncomputable def ladderValue (s : Ladder) : ℤ × Ladder :=
  let temp_qc := s.qc ++ [LOp.barrier, LOp.meas]
  let p := rx1Prob (thetaOf temp_qc)
  (round (2 * Real.arcsin (Real.sqrt p) * s.d / Real.pi), s)

/-! ## Circuit semantics for the superposition encoder

The circuits built by `bitstring_superposer` use only `X`, `H` and `CX`
gates on `num` qubits.  A state is an integer-valued amplitude function on
basis assignments `Fin n → Bool` (the true amplitudes are these integers
divided by `√2` per `H` gate), so the noiseless probability of measuring `v`
is `amp(v)² / 2^(#H)`. -/

inductive Gate
  | x (i : ℕ)
  | h (i : ℕ)
  | cx (c t : ℕ)

abbrev Amp (n : ℕ) := (Fin n → Bool) → ℤ

def flipAt {n : ℕ} (i : ℕ) (v : Fin n → Bool) : Fin n → Bool :=
  fun j => if (j : ℕ) = i then !(v j) else v j

def setAt {n : ℕ} (i : ℕ) (b : Bool) (v : Fin n → Bool) : Fin n → Bool :=
  fun j => if (j : ℕ) = i then b else v j

def readAt {n : ℕ} (i : ℕ) (v : Fin n → Bool) : Bool :=
  if hi : i < n then v ⟨i, hi⟩ else false

/-- The classical action of `CX` (control `a`, target `b`) on a basis state. -/
def cxMap {n : ℕ} (a b : ℕ) (v : Fin n → Bool) : Fin n → Bool :=
  if readAt a v then flipAt b v else v

def applyGate {n : ℕ} : Gate → Amp n → Amp n
  | .x i, c => fun v => c (flipAt i v)
  | .h i, c => fun v =>
      c (setAt i false v) +
        (if readAt i v then -(c (setAt i true v)) else c (setAt i true v))
  | .cx a b, c => fun v => c (cxMap a b v)

def applyGates {n : ℕ} (gs : List Gate) (c : Amp n) : Amp n :=
  gs.foldl (fun c g => applyGate g c) c

def indAmp {n : ℕ} (s : Fin n → Bool) : Amp n :=
  fun v => if v = s then 1 else 0

def allFalse (n : ℕ) : Fin n → Bool := fun _ => false

def isH : Gate → Bool
  | .h _ => true
  | .x _ => false
  | .cx _ _ => false

def countH (gs : List Gate) : ℕ := (gs.filter isH).length

/-- Noiseless probability of measuring basis outcome `v` after running `gs`
on the all-zero initial state. -/
def probOf (n : ℕ) (gs : List Gate) (v : Fin n → Bool) : ℚ :=
  ((applyGates gs (indAmp (allFalse n)) v : ℤ) : ℚ) ^ 2 / 2 ^ countH gs

/-! ## Bit-string superposition encoder (lines 152-221) -/

abbrev BitStr := List Bool

/-- Character `bit` of a bit-string; `getD` with default `false` — every
place it is relied upon below is guarded by an in-range `List.get?`. -/
def bitAt (s : BitStr) (i : ℕ) : Bool := s.getD i false

/-- Lines 170-172: `num = max(len(string), num)` over the list. -/
def maxLen (strings : List BitStr) : ℕ :=
  strings.foldl (fun num s => max s.length num) 0

/-- Lines 173-174: `for string in strings: string = '0'*(num-len(string)) + string`.
The assignment rebinds the loop variable only; the padded value is computed
and dropped, and the list is returned unchanged. -/
def padStrings (num : ℕ) (strings : List BitStr) : List BitStr :=
  strings.map (fun s =>
    let _padded : BitStr := List.replicate (num - s.length) false ++ s
    s)

/-- The behaviour the spec describes for lines 173-174: strings shorter than
the maximum are left-zero-padded. -/
def padStringsSpec (num : ℕ) (strings : List BitStr) : List BitStr :=
  strings.map (fun s => List.replicate (num - s.length) false ++ s)

/-- Lines 184-190: one pass over `range(num)`, emitting an `X` on every bit
where the two strings agree on `'1'` and collecting the differing positions.
The string indexing `strings[0][bit]` / `strings[1][bit]` raises `IndexError`
when out of range, hence the `Option`. -/
def bitLoop (s0 s1 : BitStr) : List ℕ → List Gate × List ℕ → Option (List Gate × List ℕ)
  | [], acc => some acc
  | bit :: rest, (gs, diff) => do
    let c0 ← s0.get? bit
    let c1 ← s1.get? bit
    bitLoop s0 s1 rest
      ((if c0 = c1 ∧ c0 = true then gs ++ [Gate.x bit] else gs),
       (if c0 ≠ c1 then diff ++ [bit] else diff))

/-- Lines 195-197: `for bit in diff: if strings[0][bit]=='1': qc.x(qr[bit])`. -/
def xLoop (s0 : BitStr) : List ℕ → List Gate → Option (List Gate)
  | [], acc => some acc
  | bit :: rest, acc => do
    let c0 ← s0.get? bit
    xLoop s0 rest (if c0 = true then acc ++ [Gate.x bit] else acc)

/-- Lines 169-200: the per-list circuit construction (gate list and register
count).  `none` models a raised `IndexError`. -/
def buildGates (strings0 : List BitStr) : Option (ℕ × List Gate) :=
  let num := maxLen strings0
  let strings := padStrings num strings0
  if strings.length = 2 ^ num then
    some (num, (List.range num).map Gate.h)
  else do
    let s0 ← strings.get? 0
    let s1 ← strings.get? 1
    let gd ← bitLoop s0 s1 (List.range num) ([], [])
    match gd.2 with
    | [] => some (num, gd.1)
    | d0 :: rest => do
      let xs2 ← xLoop s0 (d0 :: rest) []
      some (num, gd.1 ++ ([Gate.h d0] ++ rest.map (fun bit => Gate.cx d0 bit)) ++ xs2)

/-- Closed form of the loop of lines 184-190: the positions where the two
strings agree on `'1'` (an `X` gate is emitted for each). -/
def agreeOnes (la lb : BitStr) (n : ℕ) : List ℕ :=
  (List.range n).filter (fun i => decide (bitAt la i = bitAt lb i ∧ bitAt la i = true))

/-- Closed form of the loop of lines 184-190: the list `diff` of positions
where the two strings differ, in increasing order. -/
def diffPos (la lb : BitStr) (n : ℕ) : List ℕ :=
  (List.range n).filter (fun i => decide (bitAt la i ≠ bitAt lb i))

/-- Closed form of the loop of lines 195-197: the differing positions where
the first string holds `'1'`. -/
def diffOnes (la lb : BitStr) (n : ℕ) : List ℕ :=
  (diffPos la lb n).filter (fun i => bitAt la i)

/-- The basis assignment named by a (endianness-corrected) result key:
position `i` of the key is qubit `i`.  Lines 199-200 measure qubit `i` into
classical bit `i`; the backend keys counts with classical bit `0` rightmost,
and line 214 (`stats[string[::-1]] = ...`) reverses the key back, so the
corrected key lists qubit `i` at character position `i`. -/
def toAsn (n : ℕ) (key : BitStr) : Fin n → Bool := fun i => bitAt key (i : ℕ)

/-- Lines 204-215 in the noiseless limit: the fraction of shots giving each
(corrected) key.  Keys of the wrong length never occur. -/
def statsFun (num : ℕ) (gs : List Gate) : BitStr → ℚ :=
  fun key => if key.length = num then probOf num gs (toAsn num key) else 0

/-- Build-and-run for one list of strings. -/
def perListStats (strings : List BitStr) : Option (BitStr → ℚ) :=
  (buildGates strings).map (fun ng => statsFun ng.1 ng.2)

/-- The noiseless outcome distribution of the circuit built for one list of
strings (zero if the construction raises). -/
def superposerDist (strings : List BitStr) : BitStr → ℚ :=
  (perListStats strings).getD (fun _ => 0)

/-- The argument of `bitstring_superposer`: line 161 dispatches on
`type(strings[0])==str`, i.e. on whether a single list of strings or a batch
of such lists was supplied. -/
inductive SuperposerInput
  | strs (l : List BitStr)
  | lists (ll : List (List BitStr))

inductive SuperposerOutput
  | one (f : BitStr → ℚ)
  | many (fs : List (BitStr → ℚ))

def SuperposerOutput.isMany : SuperposerOutput → Bool
  | .one _ => false
  | .many _ => true

/-- Lines 166-215: per-list stats over the whole batch, in input order. -/
def statsForList : List (List BitStr) → Option (List (BitStr → ℚ))
  | [] => some []
  | strings :: rest => do
    let f ← perListStats strings
    let fs ← statsForList rest
    some (f :: fs)

/-- Lines 217-219: `if len(stats_list)==1: stats_list = stats_list[0]`. -/
def collapseSingleton (fs : List (BitStr → ℚ)) : SuperposerOutput :=
  match fs with
  | [f] => .one f
  | _ => .many fs

/-- Lines 152-221 of `bitstring_superposer` in the noiseless limit.  The
`isEmpty` guards model the `strings[0]` access of line 161 raising on an
empty argument. -/
def bitstring_superposer (strings : SuperposerInput) : Option SuperposerOutput :=
  match strings with
  | .strs l => if l.isEmpty then none else (statsForList [l]).map collapseSingleton
  | .lists ll => if ll.isEmpty then none else (statsForList ll).map collapseSingleton

/-! ## Topology layout (lines 370-442) -/

/-- The configuration of a named backend, an external collaborator
(`backend.configuration['n_qubits']` and `['coupling_map']`). -/
structure BackendConfig where
  n_qubits : ℕ
  coupling_map : List (ℕ × ℕ)

def recognizedDevices : List String := ["ibmqx2", "ibmqx4", "ibmqx5"]

/-- The dynamically-typed `device` argument of `layout.__init__`: a string,
a list (grid specification), or anything else. -/
inductive Device
  | str (s : String)
  | grid (l : List ℕ)
  | other

/-- Keys of `self.pos`: element indices or coupler labels. -/
abbrev NodeKey := ℕ ⊕ Char

structure LayoutData where
  num : ℕ
  pairs : List (Char × ℕ × ℕ)
  pos : NodeKey → Option (ℚ × ℚ)

/-- Lines 379-383 / 395-408: label the coupling list with consecutive
characters starting at `chr(65)`. -/
def labelPairs (coupling : List (ℕ × ℕ)) : List (Char × ℕ × ℕ) :=
  coupling.enum.map (fun e => (Char.ofNat (65 + e.1), e.2))

/-- Line 385. -/
def posQX24 : List (ℕ × ℚ × ℚ) :=
  [(0, (1, 1)), (1, (1, 0)), (2, (1/2, 1/2)), (3, (0, 0)), (4, (0, 1))]

/-- Lines 387-388. -/
def posQX5 : List (ℕ × ℚ × ℚ) :=
  [(0, (0, 0)), (1, (0, 1)), (2, (1, 1)), (3, (2, 1)), (4, (3, 1)), (5, (4, 1)),
   (6, (5, 1)), (7, (6, 1)), (8, (7, 1)), (9, (7, 0)), (10, (6, 0)), (11, (5, 0)),
   (12, (4, 0)), (13, (3, 0)), (14, (2, 0)), (15, (1, 0))]

def tablePos (table : List (ℕ × ℚ × ℚ)) : NodeKey → Option (ℚ × ℚ) :=
  fun k => match k with
  | .inl nn => (table.find? (fun e => e.1 == nn)).map (fun e => e.2)
  | .inr _ => none

/-- Dict update `self.pos[k] = v` (last write wins). -/
def updatePos (f : NodeKey → Option (ℚ × ℚ)) (k : NodeKey) (v : ℚ × ℚ) :
    NodeKey → Option (ℚ × ℚ) :=
  fun k2 => if k2 = k then some v else f k2

/-- Lines 397-408: the grid coupling list, exactly as generated by the two
nested loops (`n = x + y*Ly`, `m = n+1` for the first family and `m = n+Ly`
for the second). -/
def gridPairsRaw (Lx Ly : ℕ) : List (ℕ × ℕ) :=
  ((List.range (Lx - 1)).flatMap (fun x =>
    (List.range Ly).map (fun y => (x + y * Ly, x + y * Ly + 1)))) ++
  ((List.range Lx).flatMap (fun x =>
    (List.range (Ly - 1)).map (fun y => (x + y * Ly, x + y * Ly + Ly))))

/-- Lines 409-413: `self.pos[x + y*Ly] = [x, y]` over the grid. -/
def gridPos (Lx Ly : ℕ) : NodeKey → Option (ℚ × ℚ) :=
  ((List.range Lx).flatMap (fun x => (List.range Ly).map (fun y => (x, y)))).foldl
    (fun f xy => updatePos f (.inl (xy.1 + xy.2 * Ly)) ((xy.1 : ℚ), (xy.2 : ℚ)))
    (fun _ => none)

/-- Lines 418-419: coupler positions as midpoints of their two elements;
a missing element key raises `KeyError`. -/
def midpointLoop (pairs : List (Char × ℕ × ℕ)) (pos0 : NodeKey → Option (ℚ × ℚ)) :
    Except String (NodeKey → Option (ℚ × ℚ)) :=
  pairs.foldlM
    (fun pos e =>
      match pos (.inl e.2.1), pos (.inl e.2.2) with
      | some p1, some p2 =>
          .ok (updatePos pos (.inr e.1) ((p1.1 + p2.1) / 2, (p1.2 + p2.2) / 2))
      | _, _ => .error "KeyError")
    pos0

/-- Line 416: the message printed on the unrecognized-device path, after which
the constructor aborts (line 418 then raises `AttributeError`, since
`self.pairs` was never assigned). -/
def unrecognizedMsg : String := "Error: Device not recognized."

/-- Lines 372-419 of `layout.__init__`.  The first component counts the
`get_backend` calls made; the second is the constructed layout, or the error
on which the constructor aborts. -/
def layoutInit (cfg : String → BackendConfig) (dev : Device) :
    ℕ × Except String LayoutData :=
  match dev with
  | .str s =>
    if s ∈ recognizedDevices then
      let backend := cfg s
      let pairs := labelPairs backend.coupling_map
      let basePos := tablePos (if s = "ibmqx5" then posQX5 else posQX24)
      (1, (midpointLoop pairs basePos).map (fun pos => ⟨backend.n_qubits, pairs, pos⟩))
    else
      (0, .error unrecognizedMsg)
  | .grid l =>
    match l.get? 0, l.get? 1 with
    | some Lx, some Ly =>
      let pairs := labelPairs (gridPairsRaw Lx Ly)
      (0, (midpointLoop pairs (gridPos Lx Ly)).map (fun pos => ⟨Lx * Ly, pairs, pos⟩))
    | _, _ => (0, .error "IndexError")
  | .other => (0, .error unrecognizedMsg)

def pairsOf (r : ℕ × Except String LayoutData) : List (Char × ℕ × ℕ) :=
  match r.2 with
  | .ok L => L.pairs
  | .error _ => []

def numOf (r : ℕ × Except String LayoutData) : ℕ :=
  match r.2 with
  | .ok L => L.num
  | .error _ => 0

/-- A `device` argument that is neither a recognized device name nor a list. -/
def deviceUnrecognized : Device → Prop
  | .str s => s ∉ recognizedDevices
  | .grid _ => False
  | .other => True

def defaultCfg : String → BackendConfig := fun _ => ⟨0, []⟩

/-! ## `layout.calculate_probs` (lines 421-442)

An outcome is modelled little-endian as `v : ℕ → Bool` with
`v n = (string[-n-1] == '1')`; raw counts are an association list of
outcomes and counts.  The returned mixed-key dict is split into its two key
sorts: element indices and coupler labels (`probs[pair]` is looked up by
label, unique by construction). -/

abbrev Outcome := ℕ → Bool

def totalCount (raw : List (Outcome × ℕ)) : ℕ := (raw.map (fun e => e.2)).sum

/-- Lines 423-428: `Z = sum(counts)`, `stats[s] = counts[s]/Z`. -/
def normStats (raw : List (Outcome × ℕ)) : List (Outcome × ℚ) :=
  raw.map (fun e => (e.1, (e.2 : ℚ) / (totalCount raw : ℚ)))

/-- Lines 434-437: `probs[n]` accumulates the mass of outcomes whose bit `n`
(read as `string[-n-1]`) is `'1'`, for `n` in `range(self.num)`. -/
def elemProb (L : LayoutData) (raw : List (Outcome × ℕ)) (n : ℕ) : ℚ :=
  if n < L.num then
    (((normStats raw).filter (fun e => e.1 n)).map (fun e => e.2)).sum
  else 0

/-- Lines 438-440: `probs[pair]` accumulates the mass of outcomes where the
two elements of the labelled pair disagree. -/
def pairProb (L : LayoutData) (raw : List (Outcome × ℕ)) (c : Char) : ℚ :=
  match L.pairs.find? (fun e => e.1 == c) with
  | some e =>
      (((normStats raw).filter (fun st => st.1 e.2.1 != st.1 e.2.2)).map
        (fun st => st.2)).sum
  | none => 0

def calculate_probs (L : LayoutData) (raw : List (Outcome × ℕ)) :
    (ℕ → ℚ) × (Char → ℚ) :=
  (elemProb L raw, pairProb L raw)

/-! # Theorems -/

/-- C7: the mitigation transform (clamp to 0 below 0.1, to 1 above 0.9, else
pass through) is idempotent on `[0, 1]`. -/
theorem mitigate_idempotent (p : ℚ) (h0 : 0 ≤ p) (h1 : p ≤ 1) :
    mitigate (mitigate p) = mitigate p := by
  have := h0
  have := h1
  unfold mitigate
  split_ifs <;> first | rfl | linarith

/-- Witness for C7 at `p = 1/2`. -/
theorem mitigate_idempotent_witness :
    (0 : ℚ) ≤ 1/2 ∧ (1/2 : ℚ) ≤ 1 ∧ mitigate (mitigate (1/2)) = mitigate (1/2) :=
  ⟨by norm_num, by norm_num, mitigate_idempotent (1/2) (by norm_num) (by norm_num)⟩

/-- C10: with mitigation on, an observed fraction strictly below 0.1 makes
`twobit.value` return `False` and commit `False` in the requested basis, and
a fraction strictly above 0.9 makes it return `True` and commit `True`,
independently of the uniform draw `r ∈ [0,1)`. -/
theorem twobit_mitigation_clamps (basis : MeasBasis) (p r : ℚ)
    (hr0 : 0 ≤ r) (hr1 : r < 1) :
    (p < 1/10 → twobitValue basis p r true = (false, prepareGates (commitSpec basis false))) ∧
    (9/10 < p → twobitValue basis p r true = (true, prepareGates (commitSpec basis true))) := by
  constructor
  · intro hp
    have hm : mitigate p = 0 := by unfold mitigate; rw [if_pos hp]
    have hv : decide (r < (0 : ℚ)) = false := by
      simp [not_lt.mpr hr0]
    simp [twobitValue, hm, hv]
  · intro hp
    have hm : mitigate p = 1 := by
      unfold mitigate
      rw [if_neg (by linarith), if_pos hp]
    have hv : decide (r < (1 : ℚ)) = true := by simp [hr1]
    simp [twobitValue, hm, hv]

/-- Witness for C10, basis `Z`, `p = 0`, `r = 1/2`. -/
theorem twobit_mitigation_clamps_witness :
    twobitValue .Z 0 (1/2) true = (false, prepareGates (commitSpec .Z false)) :=
  (twobit_mitigation_clamps .Z 0 (1/2) (by norm_num) (by norm_num)).1 (by norm_num)

/-- C9: `ladder.value` is a read-only probe: the ladder state after a
`value()` call is the state before it, so interleaved `value()` calls never
change what later `add`/`value` calls operate on. -/
theorem ladder_value_readonly (s : Ladder) (delta : ℝ) :
    (ladderValue s).2 = s ∧
    ladderAdd (ladderValue s).2 delta = ladderAdd s delta ∧
    (ladderValue (ladderValue s).2).1 = (ladderValue s).1 :=
  ⟨rfl, rfl, rfl⟩

/-- C4: constructing a layout from a device argument that is neither a
recognized device name nor a list aborts with the descriptive
device-not-recognized error, and no backend call is made. -/
theorem layout_unrecognized_aborts (cfg : String → BackendConfig) (dev : Device)
    (hdev : deviceUnrecognized dev) :
    (layoutInit cfg dev).2 = .error unrecognizedMsg ∧ (layoutInit cfg dev).1 = 0 := by
  cases dev with
  | str s =>
    have hs : s ∉ recognizedDevices := hdev
    simp [layoutInit, hs]
  | grid l => exact absurd hdev (by simp [deviceUnrecognized])
  | other => simp [layoutInit]

/-- Witness for C4 at the unrecognized name `"foo"`. -/
theorem layout_unrecognized_aborts_witness :
    (layoutInit defaultCfg (.str "foo")).2 = .error unrecognizedMsg ∧
    (layoutInit defaultCfg (.str "foo")).1 = 0 :=
  layout_unrecognized_aborts defaultCfg (.str "foo")
    (by decide : "foo" ∉ recognizedDevices)

/-- C1 (code bug): at grid `[2,3]` the constructor succeeds with `num = 6`
elements, but builds the coupler list below: coupler `'C'` references
elements `6` and `7` (and `'E'`, `'G'` reference `6` and `7` as well), which
are not inside the valid range `[0, 2*3)`.  The grid index formula
`n = x + y*Ly` of lines 399/405 only tiles `[0, Lx*Ly)` when `Lx = Ly` or
`Ly = 1`. -/
theorem grid_coupler_out_of_range :
    pairsOf (layoutInit defaultCfg (.grid [2, 3])) =
      [('A', (0, 1)), ('B', (3, 4)), ('C', (6, 7)), ('D', (0, 3)),
       ('E', (3, 6)), ('F', (1, 4)), ('G', (4, 7))] ∧
    numOf (layoutInit defaultCfg (.grid [2, 3])) = 2 * 3 ∧
    ¬ (6 < 2 * 3 ∧ 7 < 2 * 3) :=
  ⟨by decide, by decide, by decide⟩

/-- The decode step of `ladder.value` is exact on angles `θ = π·k/d` with
`0 ≤ k ≤ d`. -/
theorem ladder_decode_exact (d k : ℕ) (hd : 0 < d) (hk : k ≤ d) :
    round (2 * Real.arcsin (Real.sqrt (rx1Prob (Real.pi * k / d))) * d / Real.pi)
      = (k : ℤ) := by
  have hdR : (0 : ℝ) < d := by exact_mod_cast hd
  have hkd : (k : ℝ) ≤ (d : ℝ) := by exact_mod_cast hk
  have hk0 : (0 : ℝ) ≤ (k : ℝ) := Nat.cast_nonneg k
  have hpi := Real.pi_pos
  set x : ℝ := Real.pi * k / d / 2 with hxdef
  have hx0 : 0 ≤ x := by positivity
  have hxle : x ≤ Real.pi / 2 := by
    rw [hxdef, div_le_div_iff₀ (by norm_num) (by norm_num : (0:ℝ) < 2)]
    rw [div_mul_eq_mul_div, div_le_iff₀ hdR]
    nlinarith
  have hsq : Real.sqrt (Real.sin x ^ 2) = Real.sin x := by
    rw [Real.sqrt_sq_eq_abs,
      abs_of_nonneg (Real.sin_nonneg_of_nonneg_of_le_pi hx0 (by linarith))]
  have harc : Real.arcsin (Real.sin x) = x := Real.arcsin_sin (by linarith) hxle
  have hval : 2 * x * (d : ℝ) / Real.pi = (k : ℝ) := by
    rw [hxdef]
    field_simp
    ring
  rw [rx1Prob, hsq, harc, hval, round_natCast]

/-- C6: from a fresh ladder with positive modulus `d`, `add(k)` for an
integer `0 ≤ k ≤ d` followed by `value()` on a noiseless backend returns
exactly `k`; `add(d)` twice followed by `value()` returns `0`: the decode's
inverse-sine folds the accumulated angle `2π` back to `0` (triangular
reflection, not a modular wrap). -/
theorem ladder_roundtrip (d k : ℕ) (hd : 0 < d) (hk : k ≤ d) :
    (ladderValue (ladderAdd (ladderInit d) (k : ℝ))).1 = (k : ℤ) ∧
    (ladderValue (ladderAdd (ladderAdd (ladderInit d) (d : ℝ)) (d : ℝ))).1 = 0 := by
  have hdR : (0 : ℝ) < d := by exact_mod_cast hd
  have hdne : (d : ℝ) ≠ 0 := ne_of_gt hdR
  constructor
  · have htheta :
        thetaOf ((ladderAdd (ladderInit d) (k : ℝ)).qc ++ [LOp.barrier, LOp.meas])
          = Real.pi * k / d := by
      simp [ladderAdd, ladderInit, thetaOf, rxAngle]
    have := ladder_decode_exact d k hd hk
    simpa [ladderValue, htheta] using this
  · have htheta :
        thetaOf ((ladderAdd (ladderAdd (ladderInit d) (d : ℝ)) (d : ℝ)).qc ++
          [LOp.barrier, LOp.meas]) = 2 * Real.pi := by
      simp [ladderAdd, ladderInit, thetaOf, rxAngle]
      field_simp
      ring
    have hp : rx1Prob (2 * Real.pi) = 0 := by
      rw [rx1Prob]
      rw [show (2 * Real.pi) / 2 = Real.pi by ring, Real.sin_pi]
      norm_num
    simp [ladderValue, htheta, hp, Real.sqrt_zero, Real.arcsin_zero]

/-- Witness for C6 at `d = 2`, `k = 1`. -/
theorem ladder_roundtrip_witness :
    0 < 2 ∧ 1 ≤ 2 ∧
    (ladderValue (ladderAdd (ladderInit 2) ((1 : ℕ) : ℝ))).1 = ((1 : ℕ) : ℤ) ∧
    (ladderValue (ladderAdd (ladderAdd (ladderInit 2) ((2 : ℕ) : ℝ)) ((2 : ℕ) : ℝ))).1 = 0 :=
  ⟨by decide, by decide,
    (ladder_roundtrip 2 1 (by decide) (by decide)).1,
    (ladder_roundtrip 2 1 (by decide) (by decide)).2⟩

theorem flipAt_invol {n : ℕ} (i : ℕ) (v : Fin n → Bool) :
    flipAt i (flipAt i v) = v := by
  funext j
  by_cases hj : (j : ℕ) = i <;> simp [flipAt, hj]

theorem applyGates_nil {n : ℕ} (c : Amp n) : applyGates [] c = c := rfl

theorem applyGates_cons {n : ℕ} (g : Gate) (t : List Gate) (c : Amp n) :
    applyGates (g :: t) c = applyGates t (applyGate g c) := rfl

theorem applyGates_append {n : ℕ} (l1 l2 : List Gate) (c : Amp n) :
    applyGates (l1 ++ l2) c = applyGates l2 (applyGates l1 c) := by
  simp [applyGates, List.foldl_append]

theorem applyGate_x_ind {n : ℕ} (i : ℕ) (s : Fin n → Bool) :
    applyGate (Gate.x i) (indAmp s) = indAmp (flipAt i s) := by
  funext v
  simp only [applyGate, indAmp]
  by_cases h : v = flipAt i s
  · subst h
    simp [flipAt_invol]
  · have h2 : flipAt i v ≠ s := by
      intro he
      apply h
      rw [← he]
      exact (flipAt_invol i v).symm
    simp [h, h2]

theorem readAt_flipAt_ne {n : ℕ} (a b : ℕ) (hab : a ≠ b) (v : Fin n → Bool) :
    readAt a (flipAt b v) = readAt a v := by
  unfold readAt
  by_cases ha : a < n
  · rw [dif_pos ha, dif_pos ha]
    simp [flipAt, hab]
  · rw [dif_neg ha, dif_neg ha]

theorem cxMap_invol {n : ℕ} (a b : ℕ) (hab : a ≠ b) (v : Fin n → Bool) :
    cxMap a b (cxMap a b v) = v := by
  unfold cxMap
  by_cases h : readAt a v = true
  · rw [if_pos h, if_pos (by rw [readAt_flipAt_ne a b hab]; exact h)]
    exact flipAt_invol b v
  · rw [if_neg h, if_neg h]

theorem applyGate_cx_ind {n : ℕ} (a b : ℕ) (hab : a ≠ b) (s : Fin n → Bool) :
    applyGate (Gate.cx a b) (indAmp s) = indAmp (cxMap a b s) := by
  funext v
  simp only [applyGate, indAmp]
  by_cases h : v = cxMap a b s
  · subst h
    simp [cxMap_invol a b hab]
  · have h2 : cxMap a b v ≠ s := by
      intro he
      apply h
      rw [← he]
      exact (cxMap_invol a b hab v).symm
    simp [h, h2]

theorem setAt_setAt {n : ℕ} (i : ℕ) (b1 b2 : Bool) (v : Fin n → Bool) :
    setAt i b1 (setAt i b2 v) = setAt i b1 v := by
  funext j
  by_cases hj : (j : ℕ) = i <;> simp [setAt, hj]

theorem setAt_apply_self {n : ℕ} (i : ℕ) (hi : i < n) (b : Bool) (v : Fin n → Bool) :
    setAt i b v ⟨i, hi⟩ = b := by
  simp [setAt]

theorem setAt_apply_ne {n : ℕ} (i : ℕ) (b : Bool) (v : Fin n → Bool) (j : Fin n)
    (hj : (j : ℕ) ≠ i) : setAt i b v j = v j := by
  simp [setAt, hj]

theorem setAt_eq_self {n : ℕ} (i : ℕ) (hi : i < n) (v : Fin n → Bool) :
    setAt i (v ⟨i, hi⟩) v = v := by
  funext j
  by_cases hj : (j : ℕ) = i
  · have hj2 : j = ⟨i, hi⟩ := Fin.ext hj
    subst hj2
    simp [setAt]
  · simp [setAt, hj]

theorem applyGate_h_ind {n : ℕ} (i : ℕ) (hi : i < n) (s : Fin n → Bool)
    (hs : s ⟨i, hi⟩ = false) :
    applyGate (Gate.h i) (indAmp s) = indAmp s + indAmp (setAt i true s) := by
  funext v
  simp only [applyGate, indAmp, Pi.add_apply]
  have hne : setAt i true v ≠ s := by
    intro he
    have hc := congrFun he ⟨i, hi⟩
    rw [setAt_apply_self i hi, hs] at hc
    exact Bool.noConfusion hc
  simp only [if_neg hne]
  rw [show (if readAt i v = true then -(0:ℤ) else 0) = 0 by split <;> norm_num]
  rw [add_zero]
  by_cases hb : v ⟨i, hi⟩ = false
  · have h1 : setAt i false v = v := by
      rw [← hb]
      exact setAt_eq_self i hi v
    have h2 : v ≠ setAt i true s := by
      intro he
      have hc := congrFun he ⟨i, hi⟩
      rw [setAt_apply_self i hi, hb] at hc
      exact Bool.noConfusion hc.symm
    rw [h1, if_neg h2, add_zero]
  · have hb1 : v ⟨i, hi⟩ = true := by
      revert hb
      cases v ⟨i, hi⟩ <;> simp
    have hvs : v ≠ s := by
      intro he
      rw [he, hs] at hb1
      exact Bool.noConfusion hb1
    have hveq : v = setAt i true v := by
      rw [← hb1]
      exact (setAt_eq_self i hi v).symm
    have hiff : setAt i false v = s ↔ v = setAt i true s := by
      constructor
      · intro he
        rw [hveq, ← setAt_setAt i true false v, he]
      · intro he
        rw [he, setAt_setAt]
        calc setAt i false s = setAt i (s ⟨i, hi⟩) s := by rw [hs]
          _ = s := setAt_eq_self i hi s
    rw [if_neg hvs, zero_add]
    by_cases hc : setAt i false v = s
    · rw [if_pos hc, if_pos (hiff.mp hc)]
    · rw [if_neg hc, if_neg (fun hc2 => hc (hiff.mpr hc2))]

theorem applyGate_add {n : ℕ} (g : Gate) (c1 c2 : Amp n) :
    applyGate g (c1 + c2) = applyGate g c1 + applyGate g c2 := by
  cases g with
  | x i => funext v; simp [applyGate]
  | h i =>
    funext v
    simp only [applyGate, Pi.add_apply]
    by_cases hr : readAt i v = true <;> simp [hr] <;> ring
  | cx a b => funext v; simp [applyGate]

theorem applyGates_add {n : ℕ} (gs : List Gate) (c1 c2 : Amp n) :
    applyGates gs (c1 + c2) = applyGates gs c1 + applyGates gs c2 := by
  induction gs generalizing c1 c2 with
  | nil => rfl
  | cons g t ih =>
    rw [applyGates_cons, applyGates_cons, applyGates_cons, applyGate_add]
    exact ih _ _

theorem applyGates_xmap_ind {n : ℕ} (P : List ℕ) (s : Fin n → Bool) :
    applyGates (P.map Gate.x) (indAmp s)
      = indAmp (P.foldl (fun t i => flipAt i t) s) := by
  induction P generalizing s with
  | nil => rfl
  | cons i t ih =>
    rw [List.map_cons, applyGates_cons, applyGate_x_ind, List.foldl_cons]
    exact ih _

theorem foldl_flipAt_eq {n : ℕ} (P : List ℕ) (hP : P.Nodup) (s : Fin n → Bool) :
    P.foldl (fun t i => flipAt i t) s
      = fun j : Fin n => if (j : ℕ) ∈ P then !(s j) else s j := by
  induction P generalizing s with
  | nil => funext j; simp
  | cons i t ih =>
    obtain ⟨hit, ht⟩ := List.nodup_cons.mp hP
    rw [List.foldl_cons, ih ht]
    funext j
    by_cases hj : (j : ℕ) = i
    · have hjt : (j : ℕ) ∉ t := by rw [hj]; exact hit
      simp [flipAt, hj, hjt, List.mem_cons, hit]
    · by_cases hjm : (j : ℕ) ∈ t <;> simp [flipAt, hj, hjm, List.mem_cons]

theorem applyGates_cxmap_ind {n : ℕ} (d0 : ℕ) (rest : List ℕ)
    (hne : ∀ j ∈ rest, j ≠ d0) (s : Fin n → Bool) :
    applyGates (rest.map (fun b => Gate.cx d0 b)) (indAmp s)
      = indAmp (rest.foldl (fun t j => cxMap d0 j t) s) := by
  induction rest generalizing s with
  | nil => rfl
  | cons j t ih =>
    rw [List.map_cons, applyGates_cons,
      applyGate_cx_ind d0 j (fun he => hne j (by simp) he.symm), List.foldl_cons]
    exact ih (fun b hb => hne b (by simp [hb])) _

theorem foldl_cxMap_control_false {n : ℕ} (d0 : ℕ) (rest : List ℕ)
    (s : Fin n → Bool) (h : readAt d0 s = false) :
    rest.foldl (fun t j => cxMap d0 j t) s = s := by
  induction rest with
  | nil => rfl
  | cons j t ih =>
    rw [List.foldl_cons, show cxMap d0 j s = s from by simp [cxMap, h]]
    exact ih

theorem foldl_cxMap_control_true {n : ℕ} (d0 : ℕ) (rest : List ℕ)
    (hne : ∀ j ∈ rest, j ≠ d0) (s : Fin n → Bool) (h : readAt d0 s = true) :
    rest.foldl (fun t j => cxMap d0 j t) s
      = rest.foldl (fun t j => flipAt j t) s := by
  induction rest generalizing s with
  | nil => rfl
  | cons j t ih =>
    have hj : j ≠ d0 := hne j (by simp)
    rw [List.foldl_cons, List.foldl_cons, show cxMap d0 j s = flipAt j s from by
      simp [cxMap, h]]
    exact ih (fun b hb => hne b (by simp [hb])) _
      (by rw [readAt_flipAt_ne d0 j (fun he => hj he.symm)]; exact h)

theorem countH_append (l1 l2 : List Gate) :
    countH (l1 ++ l2) = countH l1 + countH l2 := by
  simp [countH, List.filter_append]

theorem countH_map_x (P : List ℕ) : countH (P.map Gate.x) = 0 := by
  induction P with
  | nil => rfl
  | cons i t ih => simp [countH, List.filter_cons, isH]

theorem countH_map_cx (d0 : ℕ) (rest : List ℕ) :
    countH (rest.map (fun b => Gate.cx d0 b)) = 0 := by
  induction rest with
  | nil => rfl
  | cons j t ih => simp [countH, List.filter_cons, isH]

theorem eq_of_bitAt_eq (n : ℕ) (l1 l2 : BitStr) (h1 : l1.length = n)
    (h2 : l2.length = n) (h : ∀ i, i < n → bitAt l1 i = bitAt l2 i) : l1 = l2 := by
  induction n generalizing l1 l2 with
  | zero =>
    rw [List.length_eq_zero] at h1 h2
    rw [h1, h2]
  | succ m ih =>
    cases l1 with
    | nil => simp at h1
    | cons a t1 =>
      cases l2 with
      | nil => simp at h2
      | cons b t2 =>
        have hab : a = b := by simpa [bitAt] using h 0 (Nat.succ_pos m)
        have ht : t1 = t2 := ih t1 t2 (by simpa using h1) (by simpa using h2)
          (fun i hi => by simpa [bitAt] using h (i + 1) (Nat.succ_lt_succ hi))
        rw [hab, ht]

theorem two_lt_two_pow (n : ℕ) (h : 2 ≤ n) : 2 < 2 ^ n :=
  calc 2 < 4 := by norm_num
    _ = 2 ^ 2 := by norm_num
    _ ≤ 2 ^ n := Nat.pow_le_pow_right (by norm_num) h

theorem padStrings_id (num : ℕ) (strings : List BitStr) :
    padStrings num strings = strings := by
  simp [padStrings]

theorem get?_eq_some_bitAt (s : BitStr) (i : ℕ) (h : i < s.length) :
    s.get? i = some (bitAt s i) := by
  induction s generalizing i with
  | nil => simp at h
  | cons a t ih =>
    cases i with
    | zero => rfl
    | succ k =>
      simp only [List.get?_cons_succ, bitAt, List.getD_cons_succ]
      exact ih k (by simpa using h)

theorem bitLoop_eq (la lb : BitStr) (l : List ℕ)
    (hl : ∀ i ∈ l, i < la.length ∧ i < lb.length) (gs : List Gate) (diff : List ℕ) :
    bitLoop la lb l (gs, diff) = some
      (gs ++ (l.filter (fun i =>
          decide (bitAt la i = bitAt lb i ∧ bitAt la i = true))).map Gate.x,
       diff ++ l.filter (fun i => decide (bitAt la i ≠ bitAt lb i))) := by
  induction l generalizing gs diff with
  | nil => simp [bitLoop]
  | cons i t ih =>
    obtain ⟨h1, h2⟩ := hl i (by simp)
    simp only [bitLoop]
    rw [get?_eq_some_bitAt la i h1, get?_eq_some_bitAt lb i h2]
    simp only [Option.bind_eq_bind, Option.some_bind]
    rw [ih (fun b hb => hl b (by simp [hb]))]
    by_cases hq : bitAt la i = bitAt lb i
    · by_cases hone : bitAt la i = true
      · have hone2 : bitAt lb i = true := by rw [← hq]; exact hone
        simp [List.filter_cons, hq, hone, hone2, List.append_assoc]
      · have hone2 : ¬ bitAt lb i = true := by rw [← hq]; exact hone
        simp [List.filter_cons, hq, hone, hone2, List.append_assoc]
    · simp [List.filter_cons, hq, List.append_assoc]

theorem xLoop_eq (la : BitStr) (l : List ℕ) (hl : ∀ i ∈ l, i < la.length)
    (acc : List Gate) :
    xLoop la l acc = some (acc ++ (l.filter (fun i => bitAt la i)).map Gate.x) := by
  induction l generalizing acc with
  | nil => simp [xLoop]
  | cons i t ih =>
    simp only [xLoop]
    rw [get?_eq_some_bitAt la i (hl i (by simp))]
    simp only [Option.bind_eq_bind, Option.some_bind]
    rw [ih (fun b hb => hl b (by simp [hb]))]
    by_cases hc : bitAt la i = true <;>
      simp [List.filter_cons, hc, List.append_assoc]

theorem mem_diffPos (la lb : BitStr) (n i : ℕ) :
    i ∈ diffPos la lb n ↔ i < n ∧ bitAt la i ≠ bitAt lb i := by
  simp [diffPos, List.mem_filter, List.mem_range]

theorem mem_agreeOnes (la lb : BitStr) (n i : ℕ) :
    i ∈ agreeOnes la lb n ↔ i < n ∧ (bitAt la i = bitAt lb i ∧ bitAt la i = true) := by
  simp [agreeOnes, List.mem_filter, List.mem_range]

theorem mem_diffOnes (la lb : BitStr) (n i : ℕ) :
    i ∈ diffOnes la lb n ↔ i ∈ diffPos la lb n ∧ bitAt la i = true := by
  simp [diffOnes, List.mem_filter]

theorem diffPos_nodup (la lb : BitStr) (n : ℕ) : (diffPos la lb n).Nodup :=
  (List.nodup_range n).filter _

theorem agreeOnes_nodup (la lb : BitStr) (n : ℕ) : (agreeOnes la lb n).Nodup :=
  (List.nodup_range n).filter _

theorem diffOnes_nodup (la lb : BitStr) (n : ℕ) : (diffOnes la lb n).Nodup :=
  (diffPos_nodup la lb n).filter _

theorem diffPos_ne_nil (n : ℕ) (la lb : BitStr) (hla : la.length = n)
    (hlb : lb.length = n) (hne : la ≠ lb) : diffPos la lb n ≠ [] := by
  intro h
  apply hne
  apply eq_of_bitAt_eq n la lb hla hlb
  intro i hi
  by_contra hbi
  have hmem : i ∈ diffPos la lb n := (mem_diffPos la lb n i).mpr ⟨hi, hbi⟩
  rw [h] at hmem
  exact absurd hmem (List.not_mem_nil i)

theorem buildGates_pair (n : ℕ) (la lb : BitStr) (hla : la.length = n)
    (hlb : lb.length = n) (hn : 2 ≤ n) (d0 : ℕ) (rest : List ℕ)
    (hD : diffPos la lb n = d0 :: rest) :
    buildGates [la, lb] = some (n,
      (agreeOnes la lb n).map Gate.x ++
      ([Gate.h d0] ++ rest.map (fun b => Gate.cx d0 b)) ++
      (diffOnes la lb n).map Gate.x) := by
  have hmax : maxLen [la, lb] = n := by simp [maxLen, hla, hlb]
  have hcond : ¬ (([la, lb] : List BitStr).length = 2 ^ n) := by
    simpa using Nat.ne_of_lt (two_lt_two_pow n hn)
  have hbl : bitLoop la lb (List.range n) ([], []) = some
      ((agreeOnes la lb n).map Gate.x, diffPos la lb n) := by
    rw [bitLoop_eq la lb (List.range n)
      (fun i hi => ⟨by rw [hla]; exact List.mem_range.mp hi,
                    by rw [hlb]; exact List.mem_range.mp hi⟩)]
    simp [agreeOnes, diffPos]
  have hxl : xLoop la (d0 :: rest) [] = some ((diffOnes la lb n).map Gate.x) := by
    rw [← hD]
    rw [xLoop_eq la (diffPos la lb n)
      (fun i hi => by rw [hla]; exact ((mem_diffPos la lb n i).mp hi).1)]
    simp [diffOnes]
  simp only [buildGates, padStrings_id, hmax]
  rw [if_neg hcond]
  simp only [List.get?_cons_zero, List.get?_cons_succ, Option.bind_eq_bind,
    Option.some_bind]
  rw [hbl]
  simp only [Option.some_bind]
  rw [hD]
  simp only [Option.bind_eq_bind, Option.some_bind]
  rw [hxl]
  simp only [Option.some_bind]

theorem countH_pair (la lb : BitStr) (n d0 : ℕ) (rest : List ℕ) :
    countH ((agreeOnes la lb n).map Gate.x ++
      ([Gate.h d0] ++ rest.map (fun b => Gate.cx d0 b)) ++
      (diffOnes la lb n).map Gate.x) = 1 := by
  rw [countH_append, countH_append, countH_append, countH_map_x, countH_map_cx,
    countH_map_x]
  rfl

theorem pair_amp (n : ℕ) (la lb : BitStr) (d0 : ℕ) (rest : List ℕ)
    (hD : diffPos la lb n = d0 :: rest) :
    applyGates
      ((agreeOnes la lb n).map Gate.x ++
       ([Gate.h d0] ++ rest.map (fun b => Gate.cx d0 b)) ++
       (diffOnes la lb n).map Gate.x)
      (indAmp (allFalse n))
      = indAmp (toAsn n la) + indAmp (toAsn n lb) := by
  have hd0D : d0 ∈ diffPos la lb n := by rw [hD]; simp
  have hd0n : d0 < n := ((mem_diffPos la lb n d0).mp hd0D).1
  have hd0bits : bitAt la d0 ≠ bitAt lb d0 := ((mem_diffPos la lb n d0).mp hd0D).2
  have hDnodup : (d0 :: rest).Nodup := hD ▸ diffPos_nodup la lb n
  have hd0rest : d0 ∉ rest := (List.nodup_cons.mp hDnodup).1
  have hrestnodup : rest.Nodup := (List.nodup_cons.mp hDnodup).2
  have hrestne : ∀ j ∈ rest, j ≠ d0 := fun j hj he => hd0rest (he ▸ hj)
  have hrestD : ∀ j, j ∈ rest → j ∈ diffPos la lb n := fun j hj => by
    rw [hD]; exact List.mem_cons_of_mem d0 hj
  -- the state after the agreeing-ones X gates
  set s0 : Fin n → Bool :=
    fun j => if (j : ℕ) ∈ agreeOnes la lb n then !(allFalse n j) else allFalse n j
    with hs0def
  have hs0mem : ∀ j : Fin n,
      s0 j = if (j : ℕ) ∈ agreeOnes la lb n then true else false := by
    intro j
    rw [hs0def]
    by_cases hm : (j : ℕ) ∈ agreeOnes la lb n <;> simp [hm, allFalse]
  have hs0d0 : s0 ⟨d0, hd0n⟩ = false := by
    rw [hs0mem]
    rw [if_neg (fun hm => hd0bits ((mem_agreeOnes la lb n d0).mp hm).2.1)]
  have hreadf : readAt d0 s0 = false := by
    unfold readAt
    rw [dif_pos hd0n]
    exact hs0d0
  have hreadt : readAt d0 (setAt d0 true s0) = true := by
    unfold readAt
    rw [dif_pos hd0n]
    exact setAt_apply_self d0 hd0n true s0
  rw [applyGates_append, applyGates_append, applyGates_append,
    applyGates_xmap_ind, foldl_flipAt_eq _ (agreeOnes_nodup la lb n), ← hs0def]
  rw [show applyGates [Gate.h d0] (indAmp s0)
      = indAmp s0 + indAmp (setAt d0 true s0) from by
    rw [applyGates_cons, applyGates_nil]
    exact applyGate_h_ind d0 hd0n s0 hs0d0]
  rw [applyGates_add, applyGates_cxmap_ind d0 rest hrestne,
    applyGates_cxmap_ind d0 rest hrestne,
    foldl_cxMap_control_false d0 rest s0 hreadf,
    foldl_cxMap_control_true d0 rest hrestne _ hreadt,
    foldl_flipAt_eq rest hrestnodup,
    applyGates_add, applyGates_xmap_ind, applyGates_xmap_ind,
    foldl_flipAt_eq _ (diffOnes_nodup la lb n),
    foldl_flipAt_eq _ (diffOnes_nodup la lb n)]
  have hlbnot : ∀ i : ℕ, bitAt la i ≠ bitAt lb i → bitAt lb i = !(bitAt la i) := by
    intro i hi
    cases ha : bitAt la i <;> cases hb : bitAt lb i <;> simp_all
  have hfalse_of_not : ∀ i : ℕ, ¬ bitAt la i = true → bitAt la i = false := by
    intro i hnot
    cases hcb : bitAt la i
    · rfl
    · exact absurd hcb hnot
  have hva : (fun j : Fin n =>
      if (j : ℕ) ∈ diffOnes la lb n then !(s0 j) else s0 j) = toAsn n la := by
    funext j
    have hi : (j : ℕ) < n := j.isLt
    show (if (j : ℕ) ∈ diffOnes la lb n then !(s0 j) else s0 j) = bitAt la (j : ℕ)
    rw [hs0mem]
    by_cases hdm : (j : ℕ) ∈ diffPos la lb n
    · have hbits : bitAt la (j : ℕ) ≠ bitAt lb (j : ℕ) :=
        ((mem_diffPos la lb n (j : ℕ)).mp hdm).2
      have hagree : (j : ℕ) ∉ agreeOnes la lb n := fun hm =>
        hbits ((mem_agreeOnes la lb n (j : ℕ)).mp hm).2.1
      rw [if_neg hagree]
      by_cases hq : (j : ℕ) ∈ diffOnes la lb n
      · rw [if_pos hq]
        rw [((mem_diffOnes la lb n (j : ℕ)).mp hq).2]
        rfl
      · rw [if_neg hq]
        have hnot : ¬ bitAt la (j : ℕ) = true := fun hone =>
          hq ((mem_diffOnes la lb n (j : ℕ)).mpr ⟨hdm, hone⟩)
        rw [hfalse_of_not _ hnot]
    · have hbits : bitAt la (j : ℕ) = bitAt lb (j : ℕ) := by
        by_contra hc
        exact hdm ((mem_diffPos la lb n (j : ℕ)).mpr ⟨hi, hc⟩)
      have hq : (j : ℕ) ∉ diffOnes la lb n := fun hm =>
        hdm ((mem_diffOnes la lb n (j : ℕ)).mp hm).1
      rw [if_neg hq]
      by_cases hm : (j : ℕ) ∈ agreeOnes la lb n
      · rw [if_pos hm]
        exact (((mem_agreeOnes la lb n (j : ℕ)).mp hm).2.2).symm
      · rw [if_neg hm]
        have hnot : ¬ bitAt la (j : ℕ) = true := fun hone =>
          hm ((mem_agreeOnes la lb n (j : ℕ)).mpr ⟨hi, hbits, hone⟩)
        exact (hfalse_of_not _ hnot).symm
  have hvb : (fun j : Fin n =>
      if (j : ℕ) ∈ diffOnes la lb n
      then !(if (j : ℕ) ∈ rest then !(setAt d0 true s0 j) else setAt d0 true s0 j)
      else (if (j : ℕ) ∈ rest then !(setAt d0 true s0 j) else setAt d0 true s0 j))
      = toAsn n lb := by
    funext j
    have hi : (j : ℕ) < n := j.isLt
    show (if (j : ℕ) ∈ diffOnes la lb n
      then !(if (j : ℕ) ∈ rest then !(setAt d0 true s0 j) else setAt d0 true s0 j)
      else (if (j : ℕ) ∈ rest then !(setAt d0 true s0 j) else setAt d0 true s0 j))
      = bitAt lb (j : ℕ)
    by_cases hdm : (j : ℕ) ∈ diffPos la lb n
    · have hbits : bitAt la (j : ℕ) ≠ bitAt lb (j : ℕ) :=
        ((mem_diffPos la lb n (j : ℕ)).mp hdm).2
      have hagree : (j : ℕ) ∉ agreeOnes la lb n := fun hm =>
        hbits ((mem_agreeOnes la lb n (j : ℕ)).mp hm).2.1
      have hmid : (if (j : ℕ) ∈ rest then !(setAt d0 true s0 j)
          else setAt d0 true s0 j) = true := by
        rcases List.mem_cons.mp (hD ▸ hdm) with hjd0 | hjrest
        · have hjr : (j : ℕ) ∉ rest := by rw [hjd0]; exact hd0rest
          rw [if_neg hjr]
          simp [setAt, hjd0]
        · rw [if_pos hjrest]
          have hjne : (j : ℕ) ≠ d0 := hrestne _ hjrest
          rw [setAt_apply_ne d0 true s0 j hjne, hs0mem, if_neg hagree]
          rfl
      rw [hmid, hlbnot (j : ℕ) hbits]
      by_cases hq : (j : ℕ) ∈ diffOnes la lb n
      · rw [if_pos hq]
        rw [((mem_diffOnes la lb n (j : ℕ)).mp hq).2]
      · rw [if_neg hq]
        have hnot : ¬ bitAt la (j : ℕ) = true := fun hone =>
          hq ((mem_diffOnes la lb n (j : ℕ)).mpr ⟨hdm, hone⟩)
        rw [hfalse_of_not _ hnot]
        rfl
    · have hbits : bitAt la (j : ℕ) = bitAt lb (j : ℕ) := by
        by_contra hc
        exact hdm ((mem_diffPos la lb n (j : ℕ)).mpr ⟨hi, hc⟩)
      have hq : (j : ℕ) ∉ diffOnes la lb n := fun hm =>
        hdm ((mem_diffOnes la lb n (j : ℕ)).mp hm).1
      have hjr : (j : ℕ) ∉ rest := fun hm => hdm (hrestD _ hm)
      have hjne : (j : ℕ) ≠ d0 := fun he => hdm (he ▸ hd0D)
      rw [if_neg hq, if_neg hjr, setAt_apply_ne d0 true s0 j hjne, hs0mem]
      rw [← hbits]
      by_cases hm : (j : ℕ) ∈ agreeOnes la lb n
      · rw [if_pos hm]
        exact (((mem_agreeOnes la lb n (j : ℕ)).mp hm).2.2).symm
      · rw [if_neg hm]
        have hnot : ¬ bitAt la (j : ℕ) = true := fun hone =>
          hm ((mem_agreeOnes la lb n (j : ℕ)).mpr ⟨hi, hbits, hone⟩)
        exact (hfalse_of_not _ hnot).symm
  rw [hva, hvb]

theorem superposerDist_of_buildGates (strings : List BitStr) (num : ℕ)
    (gs : List Gate) (h : buildGates strings = some (num, gs)) :
    superposerDist strings = statsFun num gs := by
  rw [superposerDist, perListStats, h]
  rfl

/-- C3: for every pair of equal-length bit-strings `a ≠ b`, the program
built by `bitstring_superposer` yields, on a noiseless backend, an outcome
distribution over the endianness-corrected keys supported exactly on
`{a, b}`, with probability `1/2` each. -/
theorem superposer_pair_distribution (n : ℕ) (la lb : BitStr)
    (hla : la.length = n) (hlb : lb.length = n) (hne : la ≠ lb) :
    ∀ key : BitStr, superposerDist [la, lb] key
      = if key = la ∨ key = lb then 1/2 else 0 := by
  have hfunne : toAsn n la ≠ toAsn n lb := by
    intro he
    apply hne
    apply eq_of_bitAt_eq n la lb hla hlb
    intro i hi
    simpa [toAsn] using congrFun he ⟨i, hi⟩
  have hkey : ∀ (key l2 : BitStr), key.length = n → l2.length = n →
      toAsn n key = toAsn n l2 → key = l2 := by
    intro key l2 hk h2 he
    apply eq_of_bitAt_eq n key l2 hk h2
    intro i hi
    simpa [toAsn] using congrFun he ⟨i, hi⟩
  rcases Nat.lt_or_ge n 2 with hn2 | hn2
  · interval_cases n
    · rw [List.length_eq_zero] at hla hlb
      exact absurd (hla.trans hlb.symm) hne
    · obtain ⟨a0, rfl⟩ := List.length_eq_one.mp hla
      obtain ⟨b0, rfl⟩ := List.length_eq_one.mp hlb
      have hab : a0 ≠ b0 := fun he => hne (by rw [he])
      have hbg : buildGates [[a0], [b0]] = some (1, [Gate.h 0]) := rfl
      have hamp : ∀ v : Fin 1 → Bool,
          applyGates [Gate.h 0] (indAmp (allFalse 1)) v = 1 := by
        intro v
        rw [applyGates_cons, applyGates_nil]
        simp only [applyGate, indAmp]
        have h1 : setAt 0 false v = allFalse 1 := by
          funext j
          have hj : (j : ℕ) = 0 := by omega
          simp [setAt, hj, allFalse]
        have h2 : ¬ (setAt 0 true v = allFalse 1) := by
          intro he
          have hc := congrFun he ⟨0, Nat.one_pos⟩
          rw [setAt_apply_self 0 Nat.one_pos] at hc
          exact Bool.noConfusion hc
        rw [h1, if_pos rfl, if_neg h2]
        split <;> norm_num
      intro key
      rw [superposerDist_of_buildGates [[a0], [b0]] 1 [Gate.h 0] hbg, statsFun]
      by_cases hk : key.length = 1
      · rw [if_pos hk]
        obtain ⟨k0, rfl⟩ := List.length_eq_one.mp hk
        rw [probOf, hamp (toAsn 1 [k0])]
        have hkor : ([k0] = [a0] ∨ [k0] = [b0]) := by
          cases k0 <;> cases a0 <;> cases b0 <;> simp_all
        rw [if_pos hkor]
        rw [show countH [Gate.h 0] = 1 from rfl]
        norm_num
      · rw [if_neg hk]
        have h1 : ¬ (key = [a0]) := fun he => hk (by rw [he]; rfl)
        have h2 : ¬ (key = [b0]) := fun he => hk (by rw [he]; rfl)
        rw [if_neg (fun hor => hor.elim h1 h2)]
  · obtain ⟨d0, rest, hD⟩ : ∃ d0 rest, diffPos la lb n = d0 :: rest := by
      cases hcase : diffPos la lb n with
      | nil => exact absurd hcase (diffPos_ne_nil n la lb hla hlb hne)
      | cons d0 rest => exact ⟨d0, rest, rfl⟩
    have hbg := buildGates_pair n la lb hla hlb hn2 d0 rest hD
    have hamp := pair_amp n la lb d0 rest hD
    have hcnt := countH_pair la lb n d0 rest
    intro key
    rw [superposerDist_of_buildGates _ _ _ hbg, statsFun]
    by_cases hk : key.length = n
    · rw [if_pos hk, probOf, hamp, hcnt]
      by_cases hA : key = la
      · subst hA
        rw [if_pos (Or.inl rfl)]
        rw [show (indAmp (toAsn n key) + indAmp (toAsn n lb)) (toAsn n key)
            = 1 from by
          simp only [Pi.add_apply, indAmp, if_pos rfl, if_neg hfunne]
          norm_num]
        norm_num
      · by_cases hB : key = lb
        · subst hB
          have hne2 : toAsn n key ≠ toAsn n la := fun he => hfunne he.symm
          rw [if_pos (Or.inr rfl)]
          rw [show (indAmp (toAsn n la) + indAmp (toAsn n key)) (toAsn n key)
              = 1 from by
            simp only [Pi.add_apply, indAmp, if_pos rfl, if_neg hne2]
            norm_num]
          norm_num
        · rw [if_neg (fun hor => hor.elim hA hB)]
          have hvA : toAsn n key ≠ toAsn n la := fun he => hA (hkey key la hk hla he)
          have hvB : toAsn n key ≠ toAsn n lb := fun he => hB (hkey key lb hk hlb he)
          rw [show (indAmp (toAsn n la) + indAmp (toAsn n lb)) (toAsn n key)
              = 0 from by
            simp only [Pi.add_apply, indAmp, if_neg hvA, if_neg hvB]
            norm_num]
          norm_num
    · rw [if_neg hk]
      have h1 : ¬ (key = la) := fun he => hk (by rw [he, hla])
      have h2 : ¬ (key = lb) := fun he => hk (by rw [he, hlb])
      rw [if_neg (fun hor => hor.elim h1 h2)]

/-- Witness for C3 at the pair `00`, `11`, evaluated at key `11`. -/
theorem superposer_pair_distribution_witness :
    superposerDist [[false, false], [true, true]] [true, true] = 1/2 := by
  have h := superposer_pair_distribution 2 [false, false] [true, true]
    rfl rfl (by decide)
  rw [h [true, true], if_pos (Or.inr rfl)]

theorem statsForList_length (ll : List (List BitStr)) (fs : List (BitStr → ℚ))
    (h : statsForList ll = some fs) : fs.length = ll.length := by
  induction ll generalizing fs with
  | nil =>
    simp only [statsForList, Option.some.injEq] at h
    rw [← h]
    rfl
  | cons l t ih =>
    simp only [statsForList, Option.bind_eq_bind] at h
    cases hp : perListStats l with
    | none => rw [hp] at h; simp at h
    | some f =>
      rw [hp] at h
      simp only [Option.some_bind] at h
      cases ht : statsForList t with
      | none => rw [ht] at h; simp at h
      | some fs2 =>
        rw [ht] at h
        simp only [Option.some_bind, Option.some.injEq] at h
        rw [← h]
        simp [ih fs2 ht]

theorem statsForList_get? (ll : List (List BitStr)) (fs : List (BitStr → ℚ))
    (h : statsForList ll = some fs) (k : ℕ) :
    (ll.get? k).bind perListStats = fs.get? k := by
  induction ll generalizing fs k with
  | nil =>
    simp only [statsForList, Option.some.injEq] at h
    rw [← h]
    simp
  | cons l t ih =>
    simp only [statsForList, Option.bind_eq_bind] at h
    cases hp : perListStats l with
    | none => rw [hp] at h; simp at h
    | some f =>
      rw [hp] at h
      simp only [Option.some_bind] at h
      cases ht : statsForList t with
      | none => rw [ht] at h; simp at h
      | some fs2 =>
        rw [ht] at h
        simp only [Option.some_bind, Option.some.injEq] at h
        rw [← h]
        cases k with
        | zero => simpa using hp
        | succ m => simpa using ih fs2 ht m

/-- C8 counterexample: a batch consisting of exactly one list collapses to a
single mapping rather than a one-element batch of mappings (lines 217-219
apply to batches too). -/
theorem superposer_singleton_batch_collapses :
    (bitstring_superposer (.lists [[[false], [true]]])).map SuperposerOutput.isMany
      = some false := rfl

/-- C8 (amended): a batch of two or more lists yields one probability mapping
per input list, in input order (`statsForList` agrees pointwise with the
per-list pipeline); a one-element batch, like a single list of strings,
yields the single mapping directly rather than a one-element batch. -/
theorem superposer_batch_shape :
    (∀ (ll : List (List BitStr)) (fs : List (BitStr → ℚ)),
        statsForList ll = some fs → 2 ≤ ll.length →
        bitstring_superposer (.lists ll) = some (.many fs)) ∧
    (∀ (ll : List (List BitStr)) (fs : List (BitStr → ℚ)) (k : ℕ),
        statsForList ll = some fs → (ll.get? k).bind perListStats = fs.get? k) ∧
    (∀ (l : List BitStr) (f : BitStr → ℚ),
        perListStats l = some f →
        bitstring_superposer (.strs l) = some (.one f)) := by
  refine ⟨?_, fun ll fs k h => statsForList_get? ll fs h k, ?_⟩
  · intro ll fs h hlen
    have hlenfs : fs.length = ll.length := statsForList_length ll fs h
    have h2 : 2 ≤ fs.length := by rw [hlenfs]; exact hlen
    have hnil : ll.isEmpty = false := by
      cases ll with
      | nil => simp at hlen
      | cons a t => rfl
    simp only [bitstring_superposer, hnil, Bool.false_eq_true, if_false, h,
      Option.map_some']
    cases fs with
    | nil => simp at h2
    | cons f fs2 =>
      cases fs2 with
      | nil => simp at h2
      | cons g fs3 => rfl
  · intro l f h
    have hnil : l.isEmpty = false := by
      cases l with
      | nil =>
        rw [show perListStats ([] : List BitStr) = none from rfl] at h
        exact Option.noConfusion h
      | cons a t => rfl
    simp only [bitstring_superposer, hnil, Bool.false_eq_true, if_false]
    rw [show statsForList [l] = some [f] from by
      simp only [statsForList, h, Option.bind_eq_bind, Option.some_bind]]
    rfl

/-- Witness for C8 on a two-list batch and a single list. -/
theorem superposer_batch_shape_witness :
    bitstring_superposer (.lists [[[false], [true]], [[true], [true]]])
      = some (.many [statsFun 1 [Gate.h 0], statsFun 1 [Gate.h 0]]) ∧
    bitstring_superposer (.strs [[false], [true]])
      = some (.one (statsFun 1 [Gate.h 0])) :=
  ⟨superposer_batch_shape.1 _ _ rfl (by decide),
   superposer_batch_shape.2.2 _ _ rfl⟩

theorem qsum_map_nonneg {α : Type} (l : List α) (f : α → ℚ)
    (h : ∀ a ∈ l, 0 ≤ f a) : 0 ≤ (l.map f).sum := by
  induction l with
  | nil => simp
  | cons a t ih =>
    simp only [List.map_cons, List.sum_cons]
    have h1 := h a (by simp)
    have h2 := ih (fun b hb => h b (by simp [hb]))
    linarith

theorem qsum_filter_le {α : Type} (l : List α) (p : α → Bool) (f : α → ℚ)
    (h : ∀ a ∈ l, 0 ≤ f a) : ((l.filter p).map f).sum ≤ (l.map f).sum := by
  induction l with
  | nil => simp
  | cons a t ih =>
    have ha := h a (by simp)
    have iht := ih (fun b hb => h b (by simp [hb]))
    by_cases hp : p a
    · simp only [List.filter_cons, hp, if_true, List.map_cons, List.sum_cons]
      linarith
    · simp only [List.filter_cons, hp, Bool.false_eq_true, if_false, List.map_cons,
        List.sum_cons]
      linarith

theorem qsum_map_div {α : Type} (l : List α) (f : α → ℚ) (Z : ℚ) :
    (l.map (fun a => f a / Z)).sum = (l.map f).sum / Z := by
  induction l with
  | nil => simp
  | cons a t ih => simp [ih, add_div]

theorem qsum_map_natCast {α : Type} (l : List α) (f : α → ℕ) :
    (l.map (fun a => ((f a : ℕ) : ℚ))).sum = (((l.map f).sum : ℕ) : ℚ) := by
  induction l with
  | nil => simp
  | cons a t ih => simp [ih]

theorem normStats_nonneg (raw : List (Outcome × ℕ)) :
    ∀ e ∈ normStats raw, 0 ≤ e.2 := by
  intro e he
  simp only [normStats, List.mem_map] at he
  obtain ⟨a, _, rfl⟩ := he
  positivity

theorem normStats_total (raw : List (Outcome × ℕ)) (h : 0 < totalCount raw) :
    ((normStats raw).map (fun e => e.2)).sum = 1 := by
  have hZpos : (0 : ℚ) < (totalCount raw : ℚ) := by exact_mod_cast h
  have hcomp : (normStats raw).map (fun e => e.2)
      = raw.map (fun e => ((e.2 : ℕ) : ℚ) / (totalCount raw : ℚ)) := by
    simp [normStats, List.map_map, Function.comp]
  rw [hcomp, qsum_map_div, qsum_map_natCast]
  exact div_self (ne_of_gt hZpos)

/-- C5: for raw counts with positive total, every value of the probability
map returned by `layout.calculate_probs` lies in `[0, 1]`, and the
normalized per-outcome probabilities it accumulates from sum to 1. -/
theorem calculate_probs_bounds (L : LayoutData) (raw : List (Outcome × ℕ))
    (hZ : 0 < totalCount raw) :
    (∀ n : ℕ, 0 ≤ (calculate_probs L raw).1 n ∧ (calculate_probs L raw).1 n ≤ 1) ∧
    (∀ c : Char, 0 ≤ (calculate_probs L raw).2 c ∧ (calculate_probs L raw).2 c ≤ 1) ∧
    ((normStats raw).map (fun e => e.2)).sum = 1 := by
  have hnn := normStats_nonneg raw
  have htot := normStats_total raw hZ
  refine ⟨?_, ?_, htot⟩
  · intro n
    show 0 ≤ elemProb L raw n ∧ elemProb L raw n ≤ 1
    unfold elemProb
    by_cases hn : n < L.num
    · rw [if_pos hn]
      refine ⟨qsum_map_nonneg _ _ (fun a ha => hnn a (List.mem_of_mem_filter ha)), ?_⟩
      calc (((normStats raw).filter (fun e => e.1 n)).map (fun e => e.2)).sum
          ≤ ((normStats raw).map (fun e => e.2)).sum := qsum_filter_le _ _ _ hnn
        _ = 1 := htot
    · rw [if_neg hn]
      norm_num
  · intro c
    show 0 ≤ pairProb L raw c ∧ pairProb L raw c ≤ 1
    unfold pairProb
    cases hfind : L.pairs.find? (fun e => e.1 == c) with
    | none => norm_num
    | some e =>
      refine ⟨qsum_map_nonneg _ _ (fun a ha => hnn a (List.mem_of_mem_filter ha)), ?_⟩
      calc (((normStats raw).filter (fun st => st.1 e.2.1 != st.1 e.2.2)).map
              (fun st => st.2)).sum
          ≤ ((normStats raw).map (fun st => st.2)).sum := qsum_filter_le _ _ _ hnn
        _ = 1 := htot

/-- Witness for C5 on a 2-element layout with one coupler and two raw
outcomes with counts 3 and 1. -/
theorem calculate_probs_bounds_witness :
    0 < totalCount [(fun i => decide (i = 0), 3), (fun _ => true, 1)] ∧
    0 ≤ (calculate_probs ⟨2, [('A', (0, 1))], fun _ => none⟩
          [(fun i => decide (i = 0), 3), (fun _ => true, 1)]).1 0 ∧
    (calculate_probs ⟨2, [('A', (0, 1))], fun _ => none⟩
          [(fun i => decide (i = 0), 3), (fun _ => true, 1)]).1 0 ≤ 1 ∧
    (calculate_probs ⟨2, [('A', (0, 1))], fun _ => none⟩
          [(fun i => decide (i = 0), 3), (fun _ => true, 1)]).2 'A' ≤ 1 ∧
    ((normStats [(fun i => decide (i = 0), 3), (fun _ => true, 1)]).map
        (fun e => e.2)).sum = 1 := by
  have h := calculate_probs_bounds ⟨2, [('A', (0, 1))], fun _ => none⟩
      [(fun i => decide (i = 0), 3), (fun _ => true, 1)] (by decide)
  exact ⟨by decide, (h.1 0).1, (h.1 0).2, (h.2.1 'A').2, h.2.2⟩

/-- C2 (code bug): the padding loop of lines 173-174 rebinds its loop
variable and leaves the list unchanged, so `bitstring_superposer(["1","00"])`
raises an `IndexError` (embedded: `none`) when line 186 reads bit 1 of
`"1"`, instead of behaving as if `"1"` had been supplied as `"01"`; with the
left-zero-padding the spec describes, the same call succeeds. -/
theorem superposer_padding_noop :
    padStrings 2 [[true], [false, false]] = [[true], [false, false]] ∧
    padStringsSpec 2 [[true], [false, false]] = [[false, true], [false, false]] ∧
    bitstring_superposer (.strs [[true], [false, false]]) = none ∧
    (bitstring_superposer (.strs (padStringsSpec 2 [[true], [false, false]]))).isSome
      = true :=
  ⟨rfl, rfl, rfl, rfl⟩
